import Mathlib

set_option maxRecDepth 10000

/-!
Verification of the llmcc decode-verify-repair core.

This file gives a shallow embedding, in Lean, of the core functions of the
llmcc repository (tools/decode.ts, tools/ax-decoder.ts, tools/validators.ts)
and proves or refutes the frozen specification claims about them.

Conventions used throughout:
* JS strings are modelled as Lean `String` / `List Char`; the candidates and
  violation messages occurring in the code and in all concrete inputs used
  here are ASCII, where JS `.length` (UTF-16 units), JS `slice` and Lean
  `String.length` agree.
* JS `undefined` for an optional field is modelled as `Option.none`; a JS
  array-valued field that is present is `some list`.
* The external collaborators (the OpenAI / ax network calls in `callModel`,
  and the host primitive `new Function` used by `validateInvariants`) are
  taken as parameters of the embedded functions: a generator is a function
  from the attempt index to `Option String` (`none` models a thrown
  generation error), and an invariant-expression evaluator is a function
  `String → String → Except String Bool` (`Except.error` models a thrown
  evaluation error, the `Bool` is JS truthiness of the expression value).
* Thrown errors of the decode loop itself are `Except.error` with a fixed
  message (the exact interpolated message text is immaterial).
-/

/-! ## Character-level string operations (JS regex replacements)

These model the exact `String.replace` calls appearing in
`attemptRepair` (tools/decode.ts lines 272-309) and the slug pattern test
`/^[a-z0-9-]+$/.test(...)` of `AxDecoder.validateSchema`. -/

/-- Membership in the character class `[a-z0-9-]`. -/
def isSlugChar (c : Char) : Bool :=
  ('a' ≤ c && c ≤ 'z') || ('0' ≤ c && c ≤ '9') || c == '-'

/-- Models `s.replace(/[^a-z0-9-]/g, '-')`: every character outside the class is
replaced by a hyphen. -/
def replaceNonSlug (l : List Char) : List Char :=
  l.map (fun c => if isSlugChar c then c else '-')

/-- The hyphen predicate used by the trimming regexes. -/
def isHyphen (c : Char) : Bool := c == '-'

/-- Models `s.replace(/^-+/, '')`: drop the leading run of hyphens. -/
def dropLeadingHyphens (l : List Char) : List Char :=
  l.dropWhile isHyphen

/-- JS replace of the regex `-+$` by the empty string: drop the trailing
run of hyphens. -/
def dropTrailingHyphens (l : List Char) : List Char :=
  (l.reverse.dropWhile isHyphen).reverse

/-- JS global replace of the regex `^-+|-+$` by the empty string: drop the
leading and the trailing run of hyphens. -/
def stripHyphens (l : List Char) : List Char :=
  dropTrailingHyphens (dropLeadingHyphens l)

/-- JS global replace of the regex `-+` by `'-'`: collapse every run of
hyphens to a single hyphen (realised as dropping the first of two adjacent
hyphens). -/
def collapseHyphens : List Char → List Char
  | [] => []
  | [c] => [c]
  | c₁ :: c₂ :: rest =>
    if c₁ == '-' && c₂ == '-' then collapseHyphens (c₂ :: rest)
    else c₁ :: collapseHyphens (c₂ :: rest)

/-- Leading-segment test on char lists, used to model JS
`String.prototype.includes`. -/
def startsWithChars : List Char → List Char → Bool
  | _, [] => true
  | [], _ :: _ => false
  | c :: cs, p :: ps => c == p && startsWithChars cs ps

/-- Models `s.includes(pat)` on char lists. -/
def containsChars : List Char → List Char → Bool
  | [], pat => pat.isEmpty
  | c :: t, pat => startsWithChars (c :: t) pat || containsChars t pat

/-- Models the regex test `/^[a-z0-9-]+$/.test(s)`. -/
def slugPatternTest (s : String) : Bool :=
  !s.toList.isEmpty && s.toList.all isSlugChar

/-! ## The repair catalog (`attemptRepair`, tools/decode.ts lines 272-309)

The source first returns non-string candidates unchanged
(`if (typeof candidate !== 'string') return candidate;`); in the loop all
candidates are strings (`callModel` returns `Promise<string>`), so the
embedding models the string branch. -/

/-- Models `violation.includes('length')`. -/
def matchesLengthViolation (violation : String) : Bool :=
  containsChars violation.toList "length".toList

/-- Models `violation.includes('pattern') || violation.includes('[a-z0-9-]')`. -/
def matchesPatternViolation (violation : String) : Bool :=
  containsChars violation.toList "pattern".toList ||
    containsChars violation.toList "[a-z0-9-]".toList

/-- The length repair of one violation iteration in `attemptRepair`:
`if (violation.includes('length')) if (repaired.length > 80)
repaired = repaired.slice(0, 80).replace(regex trailing hyphens, '')`. -/
def lengthRepair (s : List Char) (violation : String) : List Char :=
  if matchesLengthViolation violation then
    if 80 < s.length then dropTrailingHyphens (s.take 80) else s
  else s

/-- The body of `for (const violation of context.violations)` in
`attemptRepair`: the length repair (slice to 80 then trim trailing hyphens)
followed by the character-pattern repair (substitute, collapse, strip). -/
def repairStep (s : List Char) (violation : String) : List Char :=
  if matchesPatternViolation violation then
    stripHyphens (collapseHyphens (replaceNonSlug (lengthRepair s violation)))
  else lengthRepair s violation

/-- The fallback value `'untitled'` as a char list. -/
def untitledChars : List Char := "untitled".toList

/-- The full body of `attemptRepair` on the char list of a string candidate:
the violation loop, then the final strip of edge hyphens, the final collapse
of hyphen runs, and the `repaired || 'untitled'` fallback. -/
def repairChars (s : List Char) (violations : List String) : List Char :=
  if (collapseHyphens (stripHyphens (violations.foldl repairStep s))).isEmpty
  then untitledChars
  else collapseHyphens (stripHyphens (violations.foldl repairStep s))

/-- Models `attemptRepair(candidate, context)` for a string candidate
(tools/decode.ts lines 272-309).  Only `context.violations` is read by the
source body, so it is the only context field taken here. -/
def attemptRepair (candidate : String) (violations : List String) : String :=
  String.mk (repairChars candidate.toList violations)

/-! ## SHA-256 (Node `crypto.createHash('sha256')`)

A faithful executable implementation over byte lists, with 32-bit words as
`Nat` reduced modulo `2 ^ 32`.  It is validated below against the FIPS
test vector for `"abc"` and against the spec hash `c66a00e5` documented in
the repository's DEMO.md. -/

/-- Addition modulo `2 ^ 32`. -/
def add32 (a b : Nat) : Nat := (a + b) % 4294967296

/-- Right rotation of a 32-bit word. -/
def rotr32 (x n : Nat) : Nat :=
  ((x >>> n) ||| (x <<< (32 - n))) % 4294967296

/-- Bitwise complement of a 32-bit word. -/
def not32 (x : Nat) : Nat := x ^^^ 4294967295

/-- The 64 SHA-256 round constants. -/
def sha256K : List Nat :=
  [1116352408, 1899447441, 3049323471, 3921009573,
   961987163, 1508970993, 2453635748, 2870763221,
   3624381080, 310598401, 607225278, 1426881987,
   1925078388, 2162078206, 2614888103, 3248222580,
   3835390401, 4022224774, 264347078, 604807628,
   770255983, 1249150122, 1555081692, 1996064986,
   2554220882, 2821834349, 2952996808, 3210313671,
   3336571891, 3584528711, 113926993, 338241895,
   666307205, 773529912, 1294757372, 1396182291,
   1695183700, 1986661051, 2177026350, 2456956037,
   2730485921, 2820302411, 3259730800, 3345764771,
   3516065817, 3600352804, 4094571909, 275423344,
   430227734, 506948616, 659060556, 883997877,
   958139571, 1322822218, 1537002063, 1747873779,
   1955562222, 2024104815, 2227730452, 2361852424,
   2428436474, 2756734187, 3204031479, 3329325298]

/-- The working state of the compression function. -/
structure Sha256State where
  a : Nat
  b : Nat
  c : Nat
  d : Nat
  e : Nat
  f : Nat
  g : Nat
  h : Nat

/-- The SHA-256 initial hash value. -/
def sha256IV : Sha256State :=
  { a := 1779033703, b := 3144134277, c := 1013904242, d := 2773480762,
    e := 1359893119, f := 2600822924, g := 528734635, h := 1541459225 }

/-- The `k` bytes of `n`, big-endian. -/
def toBytesBE : Nat → Nat → List Nat
  | 0, _ => []
  | k + 1, n => toBytesBE k (n / 256) ++ [n % 256]

/-- Group a 64-byte block into 16 big-endian 32-bit words. -/
def bytesToWords : List Nat → List Nat
  | b₀ :: b₁ :: b₂ :: b₃ :: rest =>
    (((b₀ * 256 + b₁) * 256 + b₂) * 256 + b₃) :: bytesToWords rest
  | _ => []

/-- The next word of the message schedule, computed from the already
produced words held newest-first. -/
def scheduleNext (acc : List Nat) : Nat :=
  let g := fun k => acc.getD k 0
  let s₀ := rotr32 (g 14) 7 ^^^ rotr32 (g 14) 18 ^^^ (g 14 >>> 3)
  let s₁ := rotr32 (g 1) 17 ^^^ rotr32 (g 1) 19 ^^^ (g 1 >>> 10)
  add32 (add32 (g 15) s₀) (add32 (g 6) s₁)

/-- Extend the schedule by `n` words (accumulator newest-first). -/
def extendSchedule (acc : List Nat) : Nat → List Nat
  | 0 => acc
  | n + 1 => extendSchedule (scheduleNext acc :: acc) n

/-- The 64-word message schedule of a block. -/
def messageSchedule (block : List Nat) : List Nat :=
  (extendSchedule (bytesToWords block).reverse 48).reverse

/-- One round of the compression function. -/
def sha256Round (st : Sha256State) (kw : Nat × Nat) : Sha256State :=
  let S₁ := rotr32 st.e 6 ^^^ rotr32 st.e 11 ^^^ rotr32 st.e 25
  let ch := (st.e &&& st.f) ^^^ (not32 st.e &&& st.g)
  let temp₁ := add32 (add32 (add32 st.h S₁) (add32 ch kw.1)) kw.2
  let S₀ := rotr32 st.a 2 ^^^ rotr32 st.a 13 ^^^ rotr32 st.a 22
  let maj := (st.a &&& st.b) ^^^ (st.a &&& st.c) ^^^ (st.b &&& st.c)
  let temp₂ := add32 S₀ maj
  { a := add32 temp₁ temp₂, b := st.a, c := st.b, d := st.c,
    e := add32 st.d temp₁, f := st.e, g := st.f, h := st.g }

/-- Compress one 64-byte block into the running state. -/
def compressBlock (st : Sha256State) (block : List Nat) : Sha256State :=
  let w := messageSchedule block
  let r := (sha256K.zip w).foldl sha256Round st
  { a := add32 st.a r.a, b := add32 st.b r.b, c := add32 st.c r.c,
    d := add32 st.d r.d, e := add32 st.e r.e, f := add32 st.f r.f,
    g := add32 st.g r.g, h := add32 st.h r.h }

/-- Merkle-Damgard padding: `0x80`, zeros, and the 64-bit big-endian bit
length, to a multiple of 64 bytes. -/
def sha256Pad (msg : List Nat) : List Nat :=
  let len := msg.length
  msg ++ 0x80 :: List.replicate ((64 + 55 - len % 64) % 64) 0
      ++ toBytesBE 8 (8 * len)

/-- Split into 64-byte blocks (fuelled with the list length). -/
def toBlocksGo : Nat → List Nat → List (List Nat)
  | 0, _ => []
  | _ + 1, [] => []
  | n + 1, l => l.take 64 :: toBlocksGo n (l.drop 64)

/-- Split a padded message into its 64-byte blocks. -/
def toBlocks (l : List Nat) : List (List Nat) := toBlocksGo l.length l

/-- The SHA-256 digest (32 bytes) of a byte list. -/
def sha256Bytes (msg : List Nat) : List Nat :=
  let st := (toBlocks (sha256Pad msg)).foldl compressBlock sha256IV
  toBytesBE 4 st.a ++ toBytesBE 4 st.b ++ toBytesBE 4 st.c ++ toBytesBE 4 st.d
    ++ toBytesBE 4 st.e ++ toBytesBE 4 st.f ++ toBytesBE 4 st.g ++ toBytesBE 4 st.h

/-- The lowercase hexadecimal alphabet. -/
def hexDigits : List Char := "0123456789abcdef".toList

/-- The lowercase hex digit of `n % 16`. -/
def hexChar (n : Nat) : Char := hexDigits.getD (n % 16) 'f'

/-- The two lowercase hex digits of a byte. -/
def byteHex (b : Nat) : List Char := [hexChar (b / 16), hexChar b]

/-- The 64-character lowercase hex digest of `digest('hex')`. -/
def sha256HexChars (msg : List Nat) : List Char :=
  (sha256Bytes msg).foldr (fun b acc => byteHex b ++ acc) []

/-- UTF-8 encoding of one character (Node encodes the hashed string as
UTF-8). -/
def utf8EncodeChar (c : Char) : List Nat :=
  let n := c.toNat
  if n < 128 then [n]
  else if n < 2048 then [192 + n / 64, 128 + n % 64]
  else if n < 65536 then [224 + n / 4096, 128 + n / 64 % 64, 128 + n % 64]
  else [240 + n / 262144, 128 + n / 4096 % 64, 128 + n / 64 % 64, 128 + n % 64]

/-- UTF-8 encoding of a string as a byte list. -/
def utf8Encode (s : String) : List Nat :=
  s.toList.foldr (fun c acc => utf8EncodeChar c ++ acc) []

/-- Models `crypto.createHash('sha256').update(s).digest('hex')` for a JS string
`s`. -/
def sha256HexOfString (s : String) : String :=
  String.mk (sha256HexChars (utf8Encode s))

/-- Models `s.slice(0, 8)` on an ASCII string. -/
def sliceEight (s : String) : String := String.mk (s.toList.take 8)

/-! ## Contract metadata and `JSON.stringify` serialization -/

/-- Models `ContractMetadata` (tools/validators.ts lines 17-27).  Optional fields
are `Option`; `undefined` is `none`. -/
structure ContractMetadata where
  name : String
  version : String
  intent : String
  input_schema : Option String := none
  output_schema : Option String := none
  invariants : Option (List String) := none
  counterexamples : Option (List (String × String)) := none
  error_codes : Option (List String) := none
  spec_hash : Option String := none

/-- The `JSON.stringify` escaping of one string character. -/
def jsonEscapeChar (c : Char) : List Char :=
  if c == '"' then ['\\', '"']
  else if c == '\\' then ['\\', '\\']
  else if c == Char.ofNat 8 then ['\\', 'b']
  else if c == Char.ofNat 9 then ['\\', 't']
  else if c == Char.ofNat 10 then ['\\', 'n']
  else if c == Char.ofNat 12 then ['\\', 'f']
  else if c == Char.ofNat 13 then ['\\', 'r']
  else if c.toNat < 32 then ['\\', 'u', '0', '0', hexChar (c.toNat / 16), hexChar c.toNat]
  else [c]

/-- Models `JSON.stringify` of a string value. -/
def jsonQuote (s : String) : String :=
  String.mk ('"' :: s.toList.foldr (fun c acc => jsonEscapeChar c ++ acc) ['"'])

/-- Models `JSON.stringify` of an array of strings. -/
def jsonStringArray (l : List String) : String :=
  "[" ++ String.intercalate "," (l.map jsonQuote) ++ "]"

/-- The serialized `specContent` of `constrainedDecode`
(tools/decode.ts lines 42-47) and of the `spec-hash` CLI command
(tools/llmcc.ts lines 266-271):
`JSON.stringify` of the object literal with the fields
`name`, `version`, `invariants`, `error_codes` in insertion order;
`undefined`-valued fields are omitted by `JSON.stringify`. -/
def cdSpecContent (c : ContractMetadata) : String :=
  "\x7b" ++ jsonQuote "name" ++ ":" ++ jsonQuote c.name
    ++ "," ++ jsonQuote "version" ++ ":" ++ jsonQuote c.version
    ++ (match c.invariants with
        | none => ""
        | some l => "," ++ jsonQuote "invariants" ++ ":" ++ jsonStringArray l)
    ++ (match c.error_codes with
        | none => ""
        | some l => "," ++ jsonQuote "error_codes" ++ ":" ++ jsonStringArray l)
    ++ "\x7d"

/-- The serialized `specContent` of `AxDecoder.generateSpecHash`
(tools/ax-decoder.ts lines 221-230): unlike `cdSpecContent` it also
serializes the `intent` field, between `version` and `invariants`. -/
def axSpecContent (c : ContractMetadata) : String :=
  "\x7b" ++ jsonQuote "name" ++ ":" ++ jsonQuote c.name
    ++ "," ++ jsonQuote "version" ++ ":" ++ jsonQuote c.version
    ++ "," ++ jsonQuote "intent" ++ ":" ++ jsonQuote c.intent
    ++ (match c.invariants with
        | none => ""
        | some l => "," ++ jsonQuote "invariants" ++ ":" ++ jsonStringArray l)
    ++ (match c.error_codes with
        | none => ""
        | some l => "," ++ jsonQuote "error_codes" ++ ":" ++ jsonStringArray l)
    ++ "\x7d"

/-- The spec hash computed inline by `constrainedDecode`
(tools/decode.ts lines 41-49) and by the `spec-hash` CLI command:
the first 8 characters of the SHA-256 hex digest of `cdSpecContent`. -/
def specHashOfContract (c : ContractMetadata) : String :=
  sliceEight (sha256HexOfString (cdSpecContent c))

/-- Models `AxDecoder.generateSpecHash` (tools/ax-decoder.ts lines 221-230). -/
def generateSpecHash (c : ContractMetadata) : String :=
  sliceEight (sha256HexOfString (axSpecContent c))

/-! ## Invariant evaluation (`validateInvariants`, tools/validators.ts lines 113-133)

The source evaluates each invariant expression with the host primitive
`new Function('output', 'return ' + invariant)` inside a per-invariant
try/catch.  The expression evaluator is a parameter here:
`evalExpr inv output = Except.ok b` models a completed evaluation whose
value has truthiness `b`, and `Except.error e` models a thrown evaluation
error with message `e`. -/

/-- The `violations` array accumulated by the `for (const invariant of
invariants)` loop: a falsy result pushes the invariant itself, a thrown
evaluation error pushes the invariant tagged with the error. -/
def invariantViolations (evalExpr : String → String → Except String Bool)
    (output : String) : List String → List String
  | [] => []
  | inv :: rest =>
    match evalExpr inv output with
    | Except.ok true => invariantViolations evalExpr output rest
    | Except.ok false => inv :: invariantViolations evalExpr output rest
    | Except.error e =>
      (inv ++ " (evaluation error: " ++ e ++ ")")
        :: invariantViolations evalExpr output rest

/-- Models `validateInvariants(output, invariants)`: `valid` iff the violations
array is empty. -/
def validateInvariants (evalExpr : String → String → Except String Bool)
    (output : String) (invariants : List String) : Bool × List String :=
  let violations := invariantViolations evalExpr output invariants
  (violations.isEmpty, violations)

/-- The invariant check as used by the decode loops: skipped (vacuously
valid) when `contractMetadata?.invariants` is `undefined`. -/
def invCheck (evalExpr : String → String → Except String Bool)
    (invs : Option (List String)) (candidate : String) : Bool × List String :=
  match invs with
  | none => (true, [])
  | some l => validateInvariants evalExpr candidate l

/-! ## The decode loops -/

/-- The observable parts of `DecodeResult` / `AxDecodeResult`:
`output`, `valid`, `repairs_attempted` and the `verification` record
(`violations: []` models the `undefined` produced by
`violations.length > 0 ? violations : undefined`).  `model_info`,
`spec_hash` and the wall-clock `latency_ms` carry no loop state and are
omitted. -/
structure DecodeResult where
  output : String
  valid : Bool
  repairs_attempted : Nat
  schema_pass : Bool
  invariants_pass : Bool
  violations : List String
  deriving DecidableEq

/-- JS `v || d` for the optional numeric option `maxRepairs`: `undefined`
and `0` are falsy, so both select the default. -/
def jsOrDefault (v : Option Nat) (d : Nat) : Nat :=
  match v with
  | none => d
  | some 0 => d
  | some (n + 1) => n + 1

/-- The body of `for (let attempt = 0; attempt <= maxRepairs; attempt++)`
in `constrainedDecode` (tools/decode.ts lines 53-144), fuelled (the fuel
starts at `maxRepairs + 1`, the number of iterations, so the fuel-exhausted
`Except.error` is the unreachable `throw new Error("Decode failed")` after
the loop).  `gen attempt = none` models `callModel` throwing on that
attempt, caught by the per-iteration try/catch. -/
def cdLoop (gen : Nat → Option String) (validate : String → Bool)
    (evalExpr : String → String → Except String Bool)
    (invs : Option (List String)) (maxRepairs : Nat) :
    Nat → Nat → Nat → Except String DecodeResult
  | 0, _, _ => Except.error "Decode failed"
  | fuel + 1, attempt, repairsAttempted =>
    match gen attempt with
    | none =>
      if attempt == maxRepairs then
        Except.error "Decode failed after repair attempts"
      else cdLoop gen validate evalExpr invs maxRepairs fuel (attempt + 1) repairsAttempted
    | some candidate =>
      let schemaValid := validate candidate
      let ic := invCheck evalExpr invs candidate
      let allValid := schemaValid && ic.1
      let result : DecodeResult :=
        { output := candidate, valid := allValid,
          repairs_attempted := repairsAttempted,
          schema_pass := schemaValid, invariants_pass := ic.1,
          violations := ic.2 }
      if allValid then Except.ok result
      else if attempt < maxRepairs then
        let repaired := attemptRepair candidate ic.2
        if repaired == candidate then
          cdLoop gen validate evalExpr invs maxRepairs fuel (attempt + 1) repairsAttempted
        else
          if validate repaired && (invCheck evalExpr invs repaired).1 then
            Except.ok { output := repaired, valid := true,
                        repairs_attempted := repairsAttempted + 1,
                        schema_pass := true, invariants_pass := true,
                        violations := [] }
          else
            cdLoop gen validate evalExpr invs maxRepairs fuel (attempt + 1)
              (repairsAttempted + 1)
      else
        Except.ok { result with repairs_attempted := repairsAttempted }

/-- Models `constrainedDecode(prompt, opts)` (tools/decode.ts lines 31-147).
`maxRepairsOpt` is `opts.maxRepairs`; the effective budget is
`opts.maxRepairs || 3`.  The schema validator (the AJV predicate compiled
from the schema file at `opts.outputSchemaPath`) and the generator are
parameters. -/
def constrainedDecode (gen : Nat → Option String) (validate : String → Bool)
    (evalExpr : String → String → Except String Bool)
    (invs : Option (List String)) (maxRepairsOpt : Option Nat) :
    Except String DecodeResult :=
  let maxRepairs := jsOrDefault maxRepairsOpt 3
  cdLoop gen validate evalExpr invs maxRepairs (maxRepairs + 1) 0 0

/-- Models `AxDecoder.validateSchema` (tools/ax-decoder.ts lines 209-219): the
built-in slug schema for the `slugifyTitle` contract, everything else
passes. -/
def validateSchema (output : String) (contract : ContractMetadata) : Bool :=
  if contract.name == "slugifyTitle" then
    decide (output.length ≤ 80) && slugPatternTest output
  else true

/-- The body of the attempt loop of `AxDecoder.decode`
(tools/ax-decoder.ts lines 82-173), fuelled like `cdLoop`.  There is no
repair transformation: a failed attempt with budget left increments
`repairsAttempted` and regenerates. -/
def axLoop (gen : Nat → Option String)
    (evalExpr : String → String → Except String Bool)
    (contract : ContractMetadata) (maxRepairs : Nat) :
    Nat → Nat → Nat → Except String DecodeResult
  | 0, _, _ => Except.error "Ax decode failed"
  | fuel + 1, attempt, repairsAttempted =>
    match gen attempt with
    | none =>
      if attempt == maxRepairs then
        Except.error "Ax decode failed after attempts"
      else axLoop gen evalExpr contract maxRepairs fuel (attempt + 1) repairsAttempted
    | some candidate =>
      let ic := invCheck evalExpr contract.invariants candidate
      let schemaValid := validateSchema candidate contract
      let allValid := schemaValid && ic.1
      let decodeResult : DecodeResult :=
        { output := candidate, valid := allValid,
          repairs_attempted := repairsAttempted,
          schema_pass := schemaValid, invariants_pass := ic.1,
          violations := ic.2 }
      if allValid then Except.ok decodeResult
      else if attempt < maxRepairs then
        axLoop gen evalExpr contract maxRepairs fuel (attempt + 1) (repairsAttempted + 1)
      else
        Except.ok { decodeResult with repairs_attempted := repairsAttempted }

/-- Models `AxDecoder.decode(prompt, opts)` (tools/ax-decoder.ts lines 65-176);
the effective budget is again `opts.maxRepairs || 3`. -/
def axDecode (gen : Nat → Option String)
    (evalExpr : String → String → Except String Bool)
    (contract : ContractMetadata) (maxRepairsOpt : Option Nat) :
    Except String DecodeResult :=
  let maxRepairs := jsOrDefault maxRepairsOpt 3
  axLoop gen evalExpr contract maxRepairs (maxRepairs + 1) 0 0

/-! ## Normal forms of repaired candidates

Analysis predicates (not part of the source) describing strings already in
the normal form that `attemptRepair`'s final normalization produces: no
leading hyphen, no trailing hyphen, no two adjacent hyphens. -/

/-- The first character, if any, is not a hyphen. -/
def headNotHyphen (l : List Char) : Bool :=
  match l.head? with
  | some c => !(c == '-')
  | none => true

/-- The last character, if any, is not a hyphen. -/
def lastNotHyphen (l : List Char) : Bool := headNotHyphen l.reverse

/-- No two adjacent hyphens. -/
def noDoubleHyphen : List Char → Bool
  | [] => true
  | [_] => true
  | c₁ :: c₂ :: rest => !(c₁ == '-' && c₂ == '-') && noDoubleHyphen (c₂ :: rest)

/-- Every character is in the class `[a-z0-9-]`. -/
def AllSlug (l : List Char) : Prop := ∀ c ∈ l, isSlugChar c = true

/-- The normal form guaranteed by `attemptRepair` for its output (given the
same violation list): nonempty, no edge hyphens, no adjacent hyphens, at
most 80 characters when some violation matches the length repair, and only
`[a-z0-9-]` characters when some violation matches the pattern repair. -/
def RepairNormal (violations : List String) (l : List Char) : Prop :=
  l ≠ [] ∧ headNotHyphen l = true ∧ lastNotHyphen l = true
    ∧ noDoubleHyphen l = true
    ∧ (violations.any matchesLengthViolation = true → l.length ≤ 80)
    ∧ (violations.any matchesPatternViolation = true → AllSlug l)

/-! ## Concrete instances used to evaluate the code at specific inputs -/

/-- A generator that always returns the candidate `"a--b"`. -/
def genAB : Nat → Option String := fun _ => some "a--b"

/-- A generator that always returns the candidate `"x--y"`. -/
def genXY : Nat → Option String := fun _ => some "x--y"

/-- A generator that always returns the candidate `"hello"`. -/
def genHello : Nat → Option String := fun _ => some "hello"

/-- A generator that always returns the candidate `"good-slug"`. -/
def genGoodSlug : Nat → Option String := fun _ => some "good-slug"

/-- A schema validator that accepts every candidate. -/
def acceptAll : String → Bool := fun _ => true

/-- A schema validator that accepts exactly `"hello"`. -/
def acceptHello : String → Bool := fun s => s == "hello"

/-- An invariant-expression evaluator under which every invariant holds of
exactly the candidate `"a-b"`. -/
def evalWantsAB : String → String → Except String Bool :=
  fun _ output => Except.ok (output == "a-b")

/-- An invariant-expression evaluator under which every invariant holds of
exactly the candidate `"x-y"`. -/
def evalWantsXY : String → String → Except String Bool :=
  fun _ output => Except.ok (output == "x-y")

/-- An invariant-expression evaluator under which every invariant holds. -/
def evalAlwaysTrue : String → String → Except String Bool :=
  fun _ _ => Except.ok true

/-- An invariant-expression evaluator that throws `"kaboom"` on the
invariant `"boom"` and otherwise succeeds iff the candidate is `"x"`. -/
def evalBoom : String → String → Except String Bool :=
  fun inv output =>
    if inv == "boom" then Except.error "kaboom" else Except.ok (output == "x")

/-- Two contracts identical in `name`, `version`, `invariants` and
`error_codes` and differing only in `intent`. -/
def contractIntentA : ContractMetadata :=
  { name := "n", version := "v1", intent := "A",
    invariants := some ["i1"], error_codes := some ["E1"] }

/-- See `contractIntentA`. -/
def contractIntentB : ContractMetadata :=
  { name := "n", version := "v1", intent := "B",
    invariants := some ["i1"], error_codes := some ["E1"] }

/-- The `slugifyTitle` contract of the repository's `src/example.ts`, as
extracted by `parseContractBlock`. -/
def slugifyTitleContract : ContractMetadata :=
  { name := "slugifyTitle", version := "v1",
    intent := "Convert an arbitrary title into a web-safe slug.",
    input_schema := some "ref://contracts/slugify.input.schema.json",
    output_schema := some "ref://contracts/slugify.output.schema.json",
    invariants := some ["output.length <= 80", "/^[a-z0-9-]+$/.test(output)"],
    error_codes := some ["SLUG_TOO_LONG", "SLUG_INVALID_CHAR"] }

/-- A contract named `slugifyTitle` with no invariants, exercising the
built-in slug schema of `AxDecoder.validateSchema`. -/
def slugNoInvContract : ContractMetadata :=
  { name := "slugifyTitle", version := "v1", intent := "" }

theorem head?_dropWhile_not (p : Char → Bool) (l : List Char) :
    ∀ c, ((l.dropWhile p).head? = some c) → p c = false := by
  induction l with
  | nil => intro c h; simp [List.dropWhile] at h
  | cons a t ih =>
    intro c h
    rw [List.dropWhile_cons] at h
    by_cases hpa : p a
    · rw [if_pos hpa] at h; exact ih c h
    · rw [if_neg hpa] at h
      simp only [List.head?_cons, Option.some.injEq] at h
      subst h
      exact Bool.eq_false_iff.mpr hpa

theorem dropTrailing_decomp (l : List Char) :
    l = dropTrailingHyphens l ++ (l.reverse.takeWhile isHyphen).reverse := by
  unfold dropTrailingHyphens
  conv_lhs => rw [← List.reverse_reverse l,
    ← List.takeWhile_append_dropWhile (p := isHyphen) (l := l.reverse)]
  rw [List.reverse_append]

theorem dropLeading_decomp (l : List Char) :
    l = l.takeWhile isHyphen ++ dropLeadingHyphens l :=
  (List.takeWhile_append_dropWhile isHyphen l).symm

theorem headNot_dropLeading (l : List Char) :
    headNotHyphen (dropLeadingHyphens l) = true := by
  unfold headNotHyphen
  cases h : (dropLeadingHyphens l).head? with
  | none => rfl
  | some c =>
    have := head?_dropWhile_not isHyphen l c h
    unfold isHyphen at this
    simp [this]

theorem lastNot_dropTrailing (l : List Char) :
    lastNotHyphen (dropTrailingHyphens l) = true := by
  unfold lastNotHyphen headNotHyphen
  rw [dropTrailingHyphens, List.reverse_reverse]
  cases h : (l.reverse.dropWhile isHyphen).head? with
  | none => rfl
  | some c =>
    have := head?_dropWhile_not isHyphen l.reverse c h
    unfold isHyphen at this
    simp [this]

theorem head?_append_left {α : Type} (X Y : List α) (h : X ≠ []) :
    (X ++ Y).head? = X.head? := by
  cases X with
  | nil => exact absurd rfl h
  | cons a t => rfl

theorem headNot_dropTrailing (l : List Char) (h : headNotHyphen l = true) :
    headNotHyphen (dropTrailingHyphens l) = true := by
  by_cases hD : dropTrailingHyphens l = []
  · rw [hD]; rfl
  · have hdec := dropTrailing_decomp l
    have hh : l.head? = (dropTrailingHyphens l).head? := by
      conv_lhs => rw [hdec]
      exact head?_append_left _ _ hD
    unfold headNotHyphen at h ⊢
    rw [← hh]
    exact h

theorem headNot_strip (l : List Char) : headNotHyphen (stripHyphens l) = true :=
  headNot_dropTrailing _ (headNot_dropLeading l)

theorem lastNot_strip (l : List Char) : lastNotHyphen (stripHyphens l) = true :=
  lastNot_dropTrailing _

theorem dropLeading_eq_self (l : List Char) (h : headNotHyphen l = true) :
    dropLeadingHyphens l = l := by
  cases l with
  | nil => rfl
  | cons a t =>
    unfold headNotHyphen at h
    simp only [List.head?_cons] at h
    unfold dropLeadingHyphens
    rw [List.dropWhile_cons]
    unfold isHyphen
    simp only [Bool.not_eq_true'] at h
    rw [h]
    simp

theorem dropTrailing_eq_self (l : List Char) (h : lastNotHyphen l = true) :
    dropTrailingHyphens l = l := by
  unfold lastNotHyphen at h
  unfold dropTrailingHyphens
  have : l.reverse.dropWhile isHyphen = l.reverse := dropLeading_eq_self l.reverse h
  rw [this, List.reverse_reverse]

theorem strip_eq_self (l : List Char)
    (h₁ : headNotHyphen l = true) (h₂ : lastNotHyphen l = true) :
    stripHyphens l = l := by
  unfold stripHyphens
  rw [dropLeading_eq_self l h₁, dropTrailing_eq_self l h₂]

theorem collapse_head? (l : List Char) : (collapseHyphens l).head? = l.head? := by
  induction l with
  | nil => rfl
  | cons c t ih =>
    cases t with
    | nil => rfl
    | cons d t' =>
      rw [collapseHyphens]
      by_cases hb : (c == '-' && d == '-') = true
      · rw [if_pos hb]
        obtain ⟨hc, hd⟩ := Bool.and_eq_true _ _ ▸ hb
        have hc' : c = '-' := by exact beq_iff_eq.mp hc
        have hd' : d = '-' := by exact beq_iff_eq.mp hd
        rw [ih]
        simp [hc', hd']
      · rw [if_neg hb]
        rfl

theorem collapse_ne_nil (l : List Char) (h : l ≠ []) : collapseHyphens l ≠ [] := by
  intro hc
  cases l with
  | nil => exact h rfl
  | cons c t =>
    have := collapse_head? (c :: t)
    rw [hc] at this
    simp at this

theorem collapse_last (l : List Char) :
    (collapseHyphens l).reverse.head? = l.reverse.head? := by
  induction l with
  | nil => rfl
  | cons c t ih =>
    cases t with
    | nil => rfl
    | cons d t' =>
      rw [collapseHyphens]
      have hrev : (c :: d :: t').reverse.head? = (d :: t').reverse.head? := by
        rw [show (c :: d :: t').reverse = (d :: t').reverse ++ [c] by simp]
        exact head?_append_left _ _ (by simp)
      by_cases hb : (c == '-' && d == '-') = true
      · rw [if_pos hb, ih, hrev]
      · rw [if_neg hb]
        have hne : collapseHyphens (d :: t') ≠ [] := collapse_ne_nil _ (by simp)
        rw [show (c :: collapseHyphens (d :: t')).reverse
              = (collapseHyphens (d :: t')).reverse ++ [c] by simp]
        rw [head?_append_left _ _ (by simpa using hne), ih, hrev]

theorem bool_not_eq_true {x : Bool} (h : (!x) = true) : x = false := by
  cases x
  · rfl
  · exact absurd h (by decide)

theorem bool_not_ne_true {x : Bool} (h : (!x) = true) : ¬(x = true) := by
  rw [bool_not_eq_true h]
  decide

theorem noDouble_cons_iff (a : Char) (l : List Char) :
    noDoubleHyphen (a :: l) = true ↔
      ((∀ b, l.head? = some b → (a == '-' && b == '-') = false)
        ∧ noDoubleHyphen l = true) := by
  cases l with
  | nil => simp [noDoubleHyphen]
  | cons b t =>
    rw [noDoubleHyphen]
    rw [Bool.and_eq_true]
    constructor
    · rintro ⟨h₁, h₂⟩
      refine ⟨?_, h₂⟩
      intro b' hb'
      simp only [List.head?_cons, Option.some.injEq] at hb'
      subst hb'
      exact bool_not_eq_true h₁
    · rintro ⟨h₁, h₂⟩
      refine ⟨?_, h₂⟩
      rw [h₁ b rfl]
      rfl

theorem noDouble_collapse (l : List Char) : noDoubleHyphen (collapseHyphens l) = true := by
  induction l with
  | nil => rfl
  | cons c t ih =>
    cases t with
    | nil => rfl
    | cons d t' =>
      rw [collapseHyphens]
      by_cases hb : (c == '-' && d == '-') = true
      · rw [if_pos hb]; exact ih
      · rw [if_neg hb]
        rw [noDouble_cons_iff]
        refine ⟨?_, ih⟩
        intro b hb'
        rw [collapse_head?] at hb'
        simp only [List.head?_cons, Option.some.injEq] at hb'
        subst hb'
        exact Bool.eq_false_iff.mpr hb

theorem collapse_eq_self (l : List Char) (h : noDoubleHyphen l = true) :
    collapseHyphens l = l := by
  induction l with
  | nil => rfl
  | cons c t ih =>
    cases t with
    | nil => rfl
    | cons d t' =>
      rw [noDoubleHyphen, Bool.and_eq_true] at h
      obtain ⟨h₁, h₂⟩ := h
      rw [collapseHyphens, if_neg (bool_not_ne_true h₁), ih h₂]

theorem headNot_collapse (l : List Char) (h : headNotHyphen l = true) :
    headNotHyphen (collapseHyphens l) = true := by
  unfold headNotHyphen at h ⊢
  rw [collapse_head?]
  exact h

theorem lastNot_collapse (l : List Char) (h : lastNotHyphen l = true) :
    lastNotHyphen (collapseHyphens l) = true := by
  unfold lastNotHyphen headNotHyphen at h ⊢
  rw [collapse_last]
  exact h

theorem mem_collapse (l : List Char) (c : Char) (h : c ∈ collapseHyphens l) : c ∈ l := by
  induction l with
  | nil => simp [collapseHyphens] at h
  | cons a t ih =>
    cases t with
    | nil => simpa [collapseHyphens] using h
    | cons d t' =>
      rw [collapseHyphens] at h
      by_cases hb : (a == '-' && d == '-') = true
      · rw [if_pos hb] at h
        exact List.mem_cons_of_mem a (ih h)
      · rw [if_neg hb] at h
        rcases List.mem_cons.mp h with h | h
        · exact h ▸ List.mem_cons_self a _
        · exact List.mem_cons_of_mem a (ih h)

theorem length_collapse_le (l : List Char) :
    (collapseHyphens l).length ≤ l.length := by
  induction l with
  | nil => simp [collapseHyphens]
  | cons a t ih =>
    cases t with
    | nil => simp [collapseHyphens]
    | cons d t' =>
      rw [collapseHyphens]
      by_cases hb : (a == '-' && d == '-') = true
      · rw [if_pos hb]
        exact Nat.le_trans ih (by simp)
      · rw [if_neg hb]
        simpa using ih

theorem allSlug_replaceNonSlug (l : List Char) : AllSlug (replaceNonSlug l) := by
  intro c hc
  unfold replaceNonSlug at hc
  obtain ⟨x, _, hx⟩ := List.mem_map.mp hc
  by_cases hs : isSlugChar x = true
  · rw [if_pos hs] at hx; rw [← hx]; exact hs
  · rw [if_neg hs] at hx; rw [← hx]; decide

theorem replaceNonSlug_eq_self (l : List Char) (h : AllSlug l) :
    replaceNonSlug l = l := by
  unfold replaceNonSlug
  induction l with
  | nil => rfl
  | cons c t ih =>
    rw [List.map_cons]
    rw [if_pos (h c (List.mem_cons_self c t))]
    rw [ih fun x hx => h x (List.mem_cons_of_mem c hx)]

theorem allSlug_dropLeading (l : List Char) (h : AllSlug l) :
    AllSlug (dropLeadingHyphens l) := by
  intro c hc
  apply h
  rw [dropLeading_decomp l]
  exact List.mem_append_right _ hc

theorem allSlug_dropTrailing (l : List Char) (h : AllSlug l) :
    AllSlug (dropTrailingHyphens l) := by
  intro c hc
  apply h
  rw [dropTrailing_decomp l]
  exact List.mem_append_left _ hc

theorem allSlug_strip (l : List Char) (h : AllSlug l) :
    AllSlug (stripHyphens l) :=
  allSlug_dropTrailing _ (allSlug_dropLeading _ h)

theorem allSlug_collapse (l : List Char) (h : AllSlug l) :
    AllSlug (collapseHyphens l) :=
  fun c hc => h c (mem_collapse l c hc)

theorem allSlug_take (l : List Char) (n : Nat) (h : AllSlug l) :
    AllSlug (l.take n) :=
  fun c hc => h c (List.take_subset n l hc)

theorem length_dropLeading_le (l : List Char) :
    (dropLeadingHyphens l).length ≤ l.length := by
  conv_rhs => rw [dropLeading_decomp l]
  rw [List.length_append]
  omega

theorem length_dropTrailing_le (l : List Char) :
    (dropTrailingHyphens l).length ≤ l.length := by
  conv_rhs => rw [dropTrailing_decomp l]
  rw [List.length_append]
  omega

theorem length_strip_le (l : List Char) :
    (stripHyphens l).length ≤ l.length :=
  Nat.le_trans (length_dropTrailing_le _) (length_dropLeading_le l)

/-! ## Invariants of the repair pipeline -/

theorem lengthRepair_length_le (s : List Char) (violation : String) :
    (lengthRepair s violation).length ≤ s.length := by
  unfold lengthRepair
  split
  · split
    · refine Nat.le_trans (length_dropTrailing_le _) ?_
      rw [List.length_take]
      omega
    · exact Nat.le_refl _
  · exact Nat.le_refl _

theorem lengthRepair_length_le80 (s : List Char) (violation : String)
    (h : matchesLengthViolation violation = true) :
    (lengthRepair s violation).length ≤ 80 := by
  unfold lengthRepair
  rw [if_pos h]
  split
  · refine Nat.le_trans (length_dropTrailing_le _) ?_
    rw [List.length_take]
    omega
  · omega

theorem repairStep_length_le (s : List Char) (violation : String) :
    (repairStep s violation).length ≤ s.length := by
  unfold repairStep
  split
  · refine Nat.le_trans (length_strip_le _) ?_
    refine Nat.le_trans (length_collapse_le _) ?_
    rw [show (replaceNonSlug (lengthRepair s violation)).length
          = (lengthRepair s violation).length from List.length_map _ _]
    exact lengthRepair_length_le s violation
  · exact lengthRepair_length_le s violation

theorem repairStep_length_le80 (s : List Char) (violation : String)
    (h : matchesLengthViolation violation = true) :
    (repairStep s violation).length ≤ 80 := by
  unfold repairStep
  split
  · refine Nat.le_trans (length_strip_le _) ?_
    refine Nat.le_trans (length_collapse_le _) ?_
    rw [show (replaceNonSlug (lengthRepair s violation)).length
          = (lengthRepair s violation).length from List.length_map _ _]
    exact lengthRepair_length_le80 s violation h
  · exact lengthRepair_length_le80 s violation h

theorem lengthRepair_allSlug (s : List Char) (violation : String)
    (h : AllSlug s) : AllSlug (lengthRepair s violation) := by
  unfold lengthRepair
  split
  · split
    · exact allSlug_dropTrailing _ (allSlug_take _ _ h)
    · exact h
  · exact h

theorem repairStep_allSlug_preserve (s : List Char) (violation : String)
    (h : AllSlug s) : AllSlug (repairStep s violation) := by
  unfold repairStep
  split
  · exact allSlug_strip _ (allSlug_collapse _ (allSlug_replaceNonSlug _))
  · exact lengthRepair_allSlug s violation h

theorem repairStep_allSlug_of_match (s : List Char) (violation : String)
    (h : matchesPatternViolation violation = true) :
    AllSlug (repairStep s violation) := by
  unfold repairStep
  rw [if_pos h]
  exact allSlug_strip _ (allSlug_collapse _ (allSlug_replaceNonSlug _))

theorem foldl_repairStep_length_le (v : List String) (s : List Char) :
    (v.foldl repairStep s).length ≤ s.length := by
  induction v generalizing s with
  | nil => exact Nat.le_refl _
  | cons viol rest ih =>
    rw [List.foldl_cons]
    exact Nat.le_trans (ih (repairStep s viol)) (repairStep_length_le s viol)

theorem foldl_repairStep_length_le80 (v : List String) (s : List Char)
    (h : v.any matchesLengthViolation = true) :
    (v.foldl repairStep s).length ≤ 80 := by
  induction v generalizing s with
  | nil => exact absurd h (by decide)
  | cons viol rest ih =>
    rw [List.foldl_cons]
    rw [List.any_cons, Bool.or_eq_true] at h
    rcases h with h | h
    · exact Nat.le_trans (foldl_repairStep_length_le rest _)
        (repairStep_length_le80 s viol h)
    · exact ih _ h

theorem foldl_repairStep_allSlug_preserve (v : List String) (s : List Char)
    (h : AllSlug s) : AllSlug (v.foldl repairStep s) := by
  induction v generalizing s with
  | nil => exact h
  | cons viol rest ih =>
    rw [List.foldl_cons]
    exact ih _ (repairStep_allSlug_preserve s viol h)

theorem foldl_repairStep_allSlug (v : List String) (s : List Char)
    (h : v.any matchesPatternViolation = true) :
    AllSlug (v.foldl repairStep s) := by
  induction v generalizing s with
  | nil => exact absurd h (by decide)
  | cons viol rest ih =>
    rw [List.foldl_cons]
    rw [List.any_cons, Bool.or_eq_true] at h
    rcases h with h | h
    · exact foldl_repairStep_allSlug_preserve rest _
        (repairStep_allSlug_of_match s viol h)
    · exact ih _ h

theorem lengthRepair_id (s : List Char) (violation : String)
    (h : matchesLengthViolation violation = true → s.length ≤ 80) :
    lengthRepair s violation = s := by
  unfold lengthRepair
  by_cases hm : matchesLengthViolation violation = true
  · rw [if_pos hm, if_neg (by have := h hm; omega)]
  · rw [if_neg hm]

theorem repairStep_id (l : List Char) (violation : String)
    (hlen : matchesLengthViolation violation = true → l.length ≤ 80)
    (hslug : matchesPatternViolation violation = true → AllSlug l)
    (hhead : headNotHyphen l = true) (hlast : lastNotHyphen l = true)
    (hnd : noDoubleHyphen l = true) :
    repairStep l violation = l := by
  unfold repairStep
  rw [lengthRepair_id l violation hlen]
  by_cases hm : matchesPatternViolation violation = true
  · rw [if_pos hm, replaceNonSlug_eq_self l (hslug hm), collapse_eq_self l hnd,
      strip_eq_self l hhead hlast]
  · rw [if_neg hm]

theorem foldl_repairStep_id (v : List String) (l : List Char)
    (hhead : headNotHyphen l = true) (hlast : lastNotHyphen l = true)
    (hnd : noDoubleHyphen l = true)
    (hlen : ∀ viol ∈ v, matchesLengthViolation viol = true → l.length ≤ 80)
    (hslug : ∀ viol ∈ v, matchesPatternViolation viol = true → AllSlug l) :
    v.foldl repairStep l = l := by
  revert hlen hslug
  induction v with
  | nil => intro _ _; rfl
  | cons viol rest ih =>
    intro hlen hslug
    rw [List.foldl_cons,
      repairStep_id l viol (hlen viol (List.mem_cons_self _ _))
        (hslug viol (List.mem_cons_self _ _)) hhead hlast hnd]
    exact ih (fun x hx => hlen x (List.mem_cons_of_mem _ hx))
      (fun x hx => hslug x (List.mem_cons_of_mem _ hx))

theorem repairChars_normal (s : List Char) (v : List String) :
    RepairNormal v (repairChars s v) := by
  unfold repairChars
  by_cases ht : (collapseHyphens (stripHyphens (v.foldl repairStep s))).isEmpty = true
  · rw [if_pos ht]
    have hu : AllSlug untitledChars := by
      intro c hc
      have : untitledChars.all isSlugChar = true := by decide
      exact List.all_eq_true.mp this c hc
    exact ⟨by decide, by decide, by decide, by decide,
      fun _ => by decide, fun _ => hu⟩
  · rw [if_neg ht]
    refine ⟨?_, headNot_collapse _ (headNot_strip _),
      lastNot_collapse _ (lastNot_strip _), noDouble_collapse _, ?_, ?_⟩
    · intro hnil
      rw [hnil] at ht
      exact ht rfl
    · intro h
      refine Nat.le_trans (length_collapse_le _) ?_
      refine Nat.le_trans (length_strip_le _) ?_
      exact foldl_repairStep_length_le80 v s h
    · intro h
      exact allSlug_collapse _ (allSlug_strip _ (foldl_repairStep_allSlug v s h))

theorem repairChars_id (v : List String) (l : List Char) (h : RepairNormal v l) :
    repairChars l v = l := by
  obtain ⟨hne, hhead, hlast, hnd, hlen, hslug⟩ := h
  have hfold : v.foldl repairStep l = l :=
    foldl_repairStep_id v l hhead hlast hnd
      (fun viol hv hm => hlen (List.any_eq_true.mpr ⟨viol, hv, hm⟩))
      (fun viol hv hm => hslug (List.any_eq_true.mpr ⟨viol, hv, hm⟩))
  unfold repairChars
  rw [hfold, strip_eq_self l hhead hlast, collapse_eq_self l hnd]
  rw [if_neg (fun he => hne (List.isEmpty_iff.mp he))]

/-! ## Coherence of accepted decode results -/

theorem cdLoop_coherent (gen : Nat → Option String) (validate : String → Bool)
    (evalExpr : String → String → Except String Bool) (invs : Option (List String))
    (maxRepairs : Nat) :
    ∀ fuel attempt repairs r,
      cdLoop gen validate evalExpr invs maxRepairs fuel attempt repairs = Except.ok r →
      r.valid = true →
      validate r.output = true ∧ (invCheck evalExpr invs r.output).1 = true := by
  intro fuel
  induction fuel with
  | zero =>
    intro attempt repairs r h
    exact absurd h (by simp [cdLoop])
  | succ n ih =>
    intro attempt repairs r h hv
    cases hg : gen attempt with
    | none =>
      rw [cdLoop, hg] at h
      dsimp only at h
      split at h
      next => exact absurd h (by simp)
      next => exact ih _ _ r h hv
    | some candidate =>
      rw [cdLoop, hg] at h
      dsimp only at h
      split at h
      next hall =>
        injection h with h
        subst h
        have hall' := hall
        rw [Bool.and_eq_true] at hall'
        exact ⟨hall'.1, hall'.2⟩
      next hnall =>
        split at h
        next hlt =>
          split at h
          next heq => exact ih _ _ r h hv
          next hne =>
            split at h
            next hrep =>
              injection h with h
              subst h
              have hrep' := hrep
              rw [Bool.and_eq_true] at hrep'
              exact ⟨hrep'.1, hrep'.2⟩
            next hnrep => exact ih _ _ r h hv
        next hnlt =>
          injection h with h
          subst h
          exact absurd hv hnall

theorem axLoop_coherent (gen : Nat → Option String)
    (evalExpr : String → String → Except String Bool)
    (contract : ContractMetadata) (maxRepairs : Nat) :
    ∀ fuel attempt repairs r,
      axLoop gen evalExpr contract maxRepairs fuel attempt repairs = Except.ok r →
      r.valid = true →
      validateSchema r.output contract = true
        ∧ (invCheck evalExpr contract.invariants r.output).1 = true := by
  intro fuel
  induction fuel with
  | zero =>
    intro attempt repairs r h
    exact absurd h (by simp [axLoop])
  | succ n ih =>
    intro attempt repairs r h hv
    cases hg : gen attempt with
    | none =>
      rw [axLoop, hg] at h
      dsimp only at h
      split at h
      next => exact absurd h (by simp)
      next => exact ih _ _ r h hv
    | some candidate =>
      rw [axLoop, hg] at h
      dsimp only at h
      split at h
      next hall =>
        injection h with h
        subst h
        have hall' := hall
        rw [Bool.and_eq_true] at hall'
        exact ⟨hall'.1, hall'.2⟩
      next hnall =>
        split at h
        next hlt => exact ih _ _ r h hv
        next hnlt =>
          injection h with h
          subst h
          exact absurd hv hnall

/-! ## Structure of the invariant-violation list -/

theorem invariantViolations_append (evalExpr : String → String → Except String Bool)
    (output : String) (l₁ l₂ : List String) :
    invariantViolations evalExpr output (l₁ ++ l₂) =
      invariantViolations evalExpr output l₁ ++ invariantViolations evalExpr output l₂ := by
  induction l₁ with
  | nil => rfl
  | cons inv rest ih =>
    rw [List.cons_append, invariantViolations, invariantViolations]
    cases evalExpr inv output with
    | ok b =>
      cases b
      · rw [ih, List.cons_append]
      · rw [ih]
    | error e => rw [ih, List.cons_append]

theorem validateInvariants_valid_iff (evalExpr : String → String → Except String Bool)
    (output : String) (invariants : List String) :
    (validateInvariants evalExpr output invariants).1 = true ↔
      (validateInvariants evalExpr output invariants).2 = [] := by
  unfold validateInvariants
  exact List.isEmpty_iff

/-! ## Shape of the hex digest -/

theorem toBytesBE_length (k n : Nat) : (toBytesBE k n).length = k := by
  induction k generalizing n with
  | zero => rfl
  | succ m ih =>
    rw [toBytesBE, List.length_append, ih]
    rfl

theorem sha256Bytes_length (msg : List Nat) : (sha256Bytes msg).length = 32 := by
  unfold sha256Bytes
  simp only [List.length_append, toBytesBE_length]

theorem foldr_byteHex_length (l : List Nat) :
    (l.foldr (fun b acc => byteHex b ++ acc) ([] : List Char)).length = 2 * l.length := by
  induction l with
  | nil => rfl
  | cons b t ih =>
    rw [List.foldr_cons, List.length_append, ih]
    rw [List.length_cons]
    unfold byteHex
    simp only [List.length_cons, List.length_nil]
    omega

theorem sha256HexChars_length (msg : List Nat) : (sha256HexChars msg).length = 64 := by
  unfold sha256HexChars
  rw [foldr_byteHex_length, sha256Bytes_length]

theorem hexChar_mem (n : Nat) : hexChar n ∈ hexDigits := by
  unfold hexChar
  have h : n % 16 < 16 := Nat.mod_lt _ (by omega)
  generalize n % 16 = m at h
  interval_cases m <;> decide

theorem mem_foldr_byteHex (l : List Nat) (c : Char)
    (h : c ∈ l.foldr (fun b acc => byteHex b ++ acc) ([] : List Char)) :
    c ∈ hexDigits := by
  induction l with
  | nil => simp at h
  | cons b t ih =>
    rw [List.foldr_cons] at h
    rcases List.mem_append.mp h with h | h
    · unfold byteHex at h
      rcases List.mem_cons.mp h with h | h
      · exact h ▸ hexChar_mem _
      · rcases List.mem_cons.mp h with h | h
        · exact h ▸ hexChar_mem _
        · simp at h
    · exact ih h

theorem string_mk_toList (c : String) : String.mk c.toList = c := by
  cases c
  rfl

theorem string_toList_eq_nil {c : String} (h : c.toList = []) : c = "" := by
  cases c with
  | mk data =>
    have hd : data = [] := h
    rw [hd]

/-! ## The repair budget bound that does hold

The loops bound `repairsAttempted` by the effective budget
`opts.maxRepairs || 3` (not by the raw `maxRepairs` option, which the
falsy-zero default conflates with `3` when it is `0`). -/

theorem cdLoop_repairs_bounded (gen : Nat → Option String) (validate : String → Bool)
    (evalExpr : String → String → Except String Bool) (invs : Option (List String))
    (maxRepairs : Nat) :
    ∀ fuel attempt repairs r,
      attempt ≤ maxRepairs →
      cdLoop gen validate evalExpr invs maxRepairs fuel attempt repairs = Except.ok r →
      r.repairs_attempted ≤ repairs + (maxRepairs - attempt) := by
  intro fuel
  induction fuel with
  | zero =>
    intro attempt repairs r _ h
    exact absurd h (by simp [cdLoop])
  | succ n ih =>
    intro attempt repairs r hle h
    cases hg : gen attempt with
    | none =>
      rw [cdLoop, hg] at h
      dsimp only at h
      split at h
      next => exact absurd h (by simp)
      next hne =>
        have hlt : attempt < maxRepairs := by
          rcases Nat.lt_or_ge attempt maxRepairs with h' | h'
          · exact h'
          · exact absurd (by simp [Nat.le_antisymm hle h']) hne
        have hrec := ih (attempt + 1) repairs r (by omega) h
        omega
    | some candidate =>
      rw [cdLoop, hg] at h
      dsimp only at h
      split at h
      next hall =>
        injection h with h
        subst h
        show repairs ≤ repairs + (maxRepairs - attempt)
        omega
      next hnall =>
        split at h
        next hlt =>
          split at h
          next heq =>
            have hrec := ih (attempt + 1) repairs r (by omega) h
            omega
          next hne2 =>
            split at h
            next hrep =>
              injection h with h
              subst h
              show repairs + 1 ≤ repairs + (maxRepairs - attempt)
              omega
            next hnrep =>
              have hrec := ih (attempt + 1) (repairs + 1) r (by omega) h
              omega
        next hnlt =>
          injection h with h
          subst h
          show repairs ≤ repairs + (maxRepairs - attempt)
          omega

theorem constrainedDecode_repairs_bounded (gen : Nat → Option String)
    (validate : String → Bool) (evalExpr : String → String → Except String Bool)
    (invs : Option (List String)) (maxRepairsOpt : Option Nat) (r : DecodeResult)
    (h : constrainedDecode gen validate evalExpr invs maxRepairsOpt = Except.ok r) :
    r.repairs_attempted ≤ jsOrDefault maxRepairsOpt 3 := by
  have hb := cdLoop_repairs_bounded gen validate evalExpr invs
    (jsOrDefault maxRepairsOpt 3) (jsOrDefault maxRepairsOpt 3 + 1) 0 0 r
    (Nat.zero_le _) h
  omega

theorem axLoop_repairs_bounded (gen : Nat → Option String)
    (evalExpr : String → String → Except String Bool)
    (contract : ContractMetadata) (maxRepairs : Nat) :
    ∀ fuel attempt repairs r,
      attempt ≤ maxRepairs →
      axLoop gen evalExpr contract maxRepairs fuel attempt repairs = Except.ok r →
      r.repairs_attempted ≤ repairs + (maxRepairs - attempt) := by
  intro fuel
  induction fuel with
  | zero =>
    intro attempt repairs r _ h
    exact absurd h (by simp [axLoop])
  | succ n ih =>
    intro attempt repairs r hle h
    cases hg : gen attempt with
    | none =>
      rw [axLoop, hg] at h
      dsimp only at h
      split at h
      next => exact absurd h (by simp)
      next hne =>
        have hlt : attempt < maxRepairs := by
          rcases Nat.lt_or_ge attempt maxRepairs with h' | h'
          · exact h'
          · exact absurd (by simp [Nat.le_antisymm hle h']) hne
        have hrec := ih (attempt + 1) repairs r (by omega) h
        omega
    | some candidate =>
      rw [axLoop, hg] at h
      dsimp only at h
      split at h
      next hall =>
        injection h with h
        subst h
        show repairs ≤ repairs + (maxRepairs - attempt)
        omega
      next hnall =>
        split at h
        next hlt =>
          have hrec := ih (attempt + 1) (repairs + 1) r (by omega) h
          omega
        next hnlt =>
          injection h with h
          subst h
          show repairs ≤ repairs + (maxRepairs - attempt)
          omega

theorem axDecode_repairs_bounded (gen : Nat → Option String)
    (evalExpr : String → String → Except String Bool)
    (contract : ContractMetadata) (maxRepairsOpt : Option Nat) (r : DecodeResult)
    (h : axDecode gen evalExpr contract maxRepairsOpt = Except.ok r) :
    r.repairs_attempted ≤ jsOrDefault maxRepairsOpt 3 := by
  have hb := axLoop_repairs_bounded gen evalExpr contract
    (jsOrDefault maxRepairsOpt 3) (jsOrDefault maxRepairsOpt 3 + 1) 0 0 r
    (Nat.zero_le _) h
  omega

/-! ## The claims -/

/-- C8: for every candidate `c` and violation list `v`,
`repair(repair(c, v), v) == repair(c, v)`: applying the repair catalog a
second time to an already-repaired value yields the same value. -/
theorem repair_idempotent (c : String) (v : List String) :
    attemptRepair (attemptRepair c v) v = attemptRepair c v := by
  show String.mk (repairChars (repairChars c.toList v) v)
      = String.mk (repairChars c.toList v)
  rw [repairChars_id v _ (repairChars_normal c.toList v)]

/-- C9: for every string candidate `c` and violation list `v`,
`repair(c, v)` is a non-empty string, and when the applied transformations
reduce the candidate to the empty string the fixed fallback `"untitled"` is
returned instead. -/
theorem repair_returns_nonempty (c : String) (v : List String) :
    attemptRepair c v ≠ ""
    ∧ ((collapseHyphens (stripHyphens (v.foldl repairStep c.toList))).isEmpty = true →
        attemptRepair c v = "untitled") := by
  constructor
  · intro h
    have h2 : repairChars c.toList v = [] := congrArg String.toList h
    exact (repairChars_normal c.toList v).1 h2
  · intro h
    show String.mk (repairChars c.toList v) = "untitled"
    unfold repairChars
    rw [if_pos h]
    rfl

/-- C9 witness: on the candidate `"---"` with no violations the repair
pipeline empties the string and the fallback `"untitled"` is returned. -/
theorem repair_returns_nonempty_witness :
    attemptRepair "---" [] ≠ "" ∧ attemptRepair "---" [] = "untitled" :=
  ⟨(repair_returns_nonempty "---" []).1,
   (repair_returns_nonempty "---" []).2 (by decide)⟩

/-- C4 counterexample: the violation list `[]` matches no catalogued
transformation, yet `attemptRepair` still rewrites `"a--b"` to `"a-b"`
(the final hyphen normalization always runs), so the candidate is not
returned unchanged. -/
theorem repair_no_match_not_unchanged :
    attemptRepair "a--b" [] = "a-b" ∧ attemptRepair "a--b" [] ≠ "a--b" := by
  constructor
  · rfl
  · decide

/-- C4 (amended): when no catalogued transformation matches any violation,
`attemptRepair` applies only the final hyphen normalization (strip edge
hyphens, collapse hyphen runs, `"untitled"` fallback for the empty string);
in particular a nonempty candidate with no leading or trailing hyphen and
no two adjacent hyphens is returned byte-for-byte unchanged. -/
theorem repair_no_match_normalizes_only (c : String) (v : List String)
    (hmatch : ∀ viol ∈ v,
      matchesLengthViolation viol = false ∧ matchesPatternViolation viol = false)
    (hne : c ≠ "") (hhead : headNotHyphen c.toList = true)
    (hlast : lastNotHyphen c.toList = true)
    (hnd : noDoubleHyphen c.toList = true) :
    attemptRepair c v = c := by
  show String.mk (repairChars c.toList v) = c
  have hfold : v.foldl repairStep c.toList = c.toList := by
    refine foldl_repairStep_id v c.toList hhead hlast hnd ?_ ?_
    · intro viol hv hm
      rw [(hmatch viol hv).1] at hm
      exact absurd hm (by decide)
    · intro viol hv hm
      rw [(hmatch viol hv).2] at hm
      exact absurd hm (by decide)
  unfold repairChars
  rw [hfold, strip_eq_self _ hhead hlast, collapse_eq_self _ hnd]
  rw [if_neg (fun he => hne (string_toList_eq_nil (List.isEmpty_iff.mp he)))]
  exact string_mk_toList c

/-- C4 witness: the already-normal candidate `"a-b"` with the unmatched
violation `"SLUG_TOO_LONG"` is returned unchanged. -/
theorem repair_no_match_normalizes_only_witness :
    attemptRepair "a-b" ["SLUG_TOO_LONG"] = "a-b" :=
  repair_no_match_normalizes_only "a-b" ["SLUG_TOO_LONG"]
    (by decide) (by decide) (by decide) (by decide) (by decide)

/-- C6: whenever a decode loop (either `constrainedDecode` or
`AxDecoder.decode`) returns a result with `valid = true`, re-running the
schema validator and the invariant evaluator of the same contract on the
result's `output` yields `schema_pass = true` and `invariants_pass = true`. -/
theorem decode_validity_coherent :
    (∀ (gen : Nat → Option String) (validate : String → Bool)
        (evalExpr : String → String → Except String Bool)
        (invs : Option (List String)) (maxRepairsOpt : Option Nat)
        (r : DecodeResult),
      constrainedDecode gen validate evalExpr invs maxRepairsOpt = Except.ok r →
      r.valid = true →
      validate r.output = true ∧ (invCheck evalExpr invs r.output).1 = true)
    ∧ (∀ (gen : Nat → Option String)
        (evalExpr : String → String → Except String Bool)
        (contract : ContractMetadata) (maxRepairsOpt : Option Nat)
        (r : DecodeResult),
      axDecode gen evalExpr contract maxRepairsOpt = Except.ok r →
      r.valid = true →
      validateSchema r.output contract = true
        ∧ (invCheck evalExpr contract.invariants r.output).1 = true) :=
  ⟨fun gen validate evalExpr invs maxRepairsOpt r h hv =>
    cdLoop_coherent gen validate evalExpr invs (jsOrDefault maxRepairsOpt 3)
      (jsOrDefault maxRepairsOpt 3 + 1) 0 0 r h hv,
   fun gen evalExpr contract maxRepairsOpt r h hv =>
    axLoop_coherent gen evalExpr contract (jsOrDefault maxRepairsOpt 3)
      (jsOrDefault maxRepairsOpt 3 + 1) 0 0 r h hv⟩

/-- C6 witness: a run of each loop that accepts on the first candidate;
re-validating the accepted outputs succeeds. -/
theorem decode_validity_coherent_witness :
    (acceptHello "hello" = true ∧ (invCheck evalAlwaysTrue none "hello").1 = true)
    ∧ (validateSchema "good-slug" slugNoInvContract = true
        ∧ (invCheck evalAlwaysTrue slugNoInvContract.invariants "good-slug").1 = true) :=
  ⟨decode_validity_coherent.1 genHello acceptHello evalAlwaysTrue none (some 1)
      { output := "hello", valid := true, repairs_attempted := 0,
        schema_pass := true, invariants_pass := true, violations := [] }
      rfl rfl,
   decode_validity_coherent.2 genGoodSlug evalAlwaysTrue slugNoInvContract (some 1)
      { output := "good-slug", valid := true, repairs_attempted := 0,
        schema_pass := true, invariants_pass := true, violations := [] }
      rfl rfl⟩

/-- C7: when evaluating one invariant expression throws, that invariant is
recorded as a violation tagged with the evaluation error, every subsequent
invariant is still evaluated (the violation list decomposes around the
throwing invariant), and `valid = true` iff the violation list is empty. -/
theorem invariant_isolation (evalExpr : String → String → Except String Bool)
    (output : String) (pre post : List String) (inv err : String)
    (h : evalExpr inv output = Except.error err) :
    (validateInvariants evalExpr output (pre ++ inv :: post)).2 =
      invariantViolations evalExpr output pre
        ++ (inv ++ " (evaluation error: " ++ err ++ ")")
          :: invariantViolations evalExpr output post
    ∧ ((validateInvariants evalExpr output (pre ++ inv :: post)).1 = true
        ↔ (validateInvariants evalExpr output (pre ++ inv :: post)).2 = []) := by
  constructor
  · show invariantViolations evalExpr output (pre ++ inv :: post) = _
    rw [invariantViolations_append]
    rw [show invariantViolations evalExpr output (inv :: post)
        = (inv ++ " (evaluation error: " ++ err ++ ")")
            :: invariantViolations evalExpr output post by
      rw [invariantViolations, h]]
  · exact validateInvariants_valid_iff evalExpr output _

/-- C7 witness: the invariant `"boom"` throws `"kaboom"`; the violation
list records the tagged error between the results of the surrounding
invariants and validity is equivalent to emptiness of the violations. -/
theorem invariant_isolation_witness :
    (validateInvariants evalBoom "x" (["a"] ++ "boom" :: ["b"])).2 =
      invariantViolations evalBoom "x" ["a"]
        ++ ("boom" ++ " (evaluation error: " ++ "kaboom" ++ ")")
          :: invariantViolations evalBoom "x" ["b"]
    ∧ ((validateInvariants evalBoom "x" (["a"] ++ "boom" :: ["b"])).1 = true
        ↔ (validateInvariants evalBoom "x" (["a"] ++ "boom" :: ["b"])).2 = []) :=
  invariant_isolation evalBoom "x" ["a"] ["b"] "boom" "kaboom" rfl

/-- C1: the code belies the spec's `maxRepairs = 0` edge policy: because the
effective budget is computed with `opts.maxRepairs || 3` and `0` is falsy in
JS, an explicit `maxRepairs = 0` is treated as the default `3`.  In this run
the first candidate `"a--b"` fails its invariant, a repair is attempted and
accepted, and the call returns `valid = true` with `repairs_attempted = 1`
instead of stopping after one validation with `repairs_attempted = 0`. -/
theorem maxRepairsZero_still_repairs :
    constrainedDecode genAB acceptAll evalWantsAB (some ["inv0"]) (some 0) =
      Except.ok { output := "a-b", valid := true, repairs_attempted := 1,
                  schema_pass := true, invariants_pass := true, violations := [] }
    ∧ jsOrDefault (some 0) 3 = 3 :=
  ⟨rfl, rfl⟩

/-- C5: the invariant `repairs_attempted ≤ maxRepairs` is violated at
`maxRepairs = 0` (again through `opts.maxRepairs || 3`): this run returns
`repairs_attempted = 1 > 0`. -/
theorem repairsAttempted_exceeds_zero_budget :
    constrainedDecode genXY acceptAll evalWantsXY (some ["invA"]) (some 0) =
      Except.ok { output := "x-y", valid := true, repairs_attempted := 1,
                  schema_pass := true, invariants_pass := true, violations := [] }
    ∧ ¬(1 ≤ 0) :=
  ⟨rfl, by decide⟩

/-- C2: the two contracts agree on `(name, version, invariants,
error_codes)` and differ only in `intent`; the `constrainedDecode` spec
hash (which serializes exactly those four fields) agrees on them, but
`AxDecoder.generateSpecHash` also serializes `intent` and produces two
different hashes. -/
theorem axSpecHash_depends_on_intent :
    contractIntentA.name = contractIntentB.name
    ∧ contractIntentA.version = contractIntentB.version
    ∧ contractIntentA.invariants = contractIntentB.invariants
    ∧ contractIntentA.error_codes = contractIntentB.error_codes
    ∧ specHashOfContract contractIntentA = specHashOfContract contractIntentB
    ∧ generateSpecHash contractIntentA = "3c743216"
    ∧ generateSpecHash contractIntentB = "85484a99"
    ∧ generateSpecHash contractIntentA ≠ generateSpecHash contractIntentB :=
  ⟨rfl, rfl, rfl, rfl, rfl, by decide, by decide, by decide⟩

/-- The SHA-256 implementation matches the FIPS 180-2 test vector for
`"abc"`. -/
theorem sha256_abc_vector :
    sha256HexOfString "abc" =
      "ba7816bf8f01cfea414140de5dae2223b00361a396177a9cb410ff61f20015ad" := by
  decide

/-- The four-field spec hash of the repository's `slugifyTitle` contract is
exactly the value `c66a00e5` documented in the repository's DEMO.md. -/
theorem specHash_matches_demo :
    specHashOfContract slugifyTitleContract = "c66a00e5" := by
  decide

theorem take8_hex_length (msg : List Nat) :
    ((sha256HexChars msg).take 8).length = 8 := by
  rw [List.length_take, sha256HexChars_length]
  decide

theorem take8_hex_mem (msg : List Nat) (ch : Char)
    (h : ch ∈ (sha256HexChars msg).take 8) : ch ∈ hexDigits :=
  mem_foldr_byteHex _ ch (List.take_subset _ _ h)

/-- C10: for every contract both spec hashes are the first 8 characters of
the SHA-256 hex digest of the serialized contract fields: strings of
exactly 8 characters drawn from the lowercase hexadecimal alphabet. -/
theorem specHash_format (c : ContractMetadata) :
    (specHashOfContract c).length = 8
    ∧ (∀ ch ∈ (specHashOfContract c).toList, ch ∈ hexDigits)
    ∧ specHashOfContract c = sliceEight (sha256HexOfString (cdSpecContent c))
    ∧ (generateSpecHash c).length = 8
    ∧ (∀ ch ∈ (generateSpecHash c).toList, ch ∈ hexDigits)
    ∧ generateSpecHash c = sliceEight (sha256HexOfString (axSpecContent c)) := by
  refine ⟨?_, ?_, rfl, ?_, ?_, rfl⟩
  · show ((sha256HexChars (utf8Encode (cdSpecContent c))).take 8).length = 8
    exact take8_hex_length _
  · intro ch hch
    exact take8_hex_mem _ ch hch
  · show ((sha256HexChars (utf8Encode (axSpecContent c))).take 8).length = 8
    exact take8_hex_length _
  · intro ch hch
    exact take8_hex_mem _ ch hch

/-- C10 witness: both spec hashes of a concrete contract have exactly 8
characters. -/
theorem specHash_format_witness :
    (specHashOfContract contractIntentA).length = 8
    ∧ (generateSpecHash contractIntentA).length = 8 :=
  ⟨(specHash_format contractIntentA).1,
   (specHash_format contractIntentA).2.2.2.1⟩
